import Mathlib

/-!
# Verification of the Atlas secret-sharing and multiplication engine

The repository source (`src/Machines/Atlas.hpp`) is an include-guarded
aggregation header assembling the Atlas protocol family: the share type,
the preprocessing engine, the bit-level secret bridge, the online protocol
with a rotating king, and the Shamir sharing primitive.  The modules it
includes are not part of the visible source, so the protocol components
below are modelled from the specification; the header itself (include
guard and aggregation) is embedded directly from the source.
-/

namespace Atlas

variable {F : Type} [Field F] [DecidableEq F]

/-- Modelled from the spec: the Shamir sharing polynomial (missing module
`Shamir.hpp`).  `sharePoly s c x` is `p(x) = s + Σ c_j x^(j+1)`, the value at
`x` of the polynomial with constant term the secret `s` and `m` further
coefficients `c`. -/
def sharePoly {m : ℕ} (s : F) (c : Fin m → F) (x : F) : F :=
  s + ∑ j : Fin m, c j * x ^ ((j : ℕ) + 1)

/-- Modelled from the spec: `share` (missing module `Shamir.hpp`) evaluates the
sharing polynomial at the `n` fixed public evaluation points, returning one
share per party. -/
def share {n m : ℕ} (s : F) (c : Fin m → F) (pts : Fin n → F) : Fin n → F :=
  fun i => sharePoly s c (pts i)

/-- Modelled from the spec: the `n` fixed public evaluation points `1..n`
(nonzero, point 0 reserved for the secret). -/
def stdPoints (F : Type) [Field F] (n : ℕ) : Fin n → F :=
  fun i => (((i : ℕ) + 1 : ℕ) : F)

/-- Pair each party's share with its evaluation point, as handed to
reconstruction. -/
def withPoints {n : ℕ} (pts : Fin n → F) (sh : Fin n → F) : List (F × F) :=
  (List.finRange n).map fun i => (pts i, sh i)

/-- Modelled from the spec: Lagrange interpolation at `x = 0` of a list of
(point, value) pairs (missing module `Shamir.hpp`). -/
def lagAt0 (ps : List (F × F)) : F :=
  ∑ j : Fin ps.length,
    (ps.get j).2 *
      ∏ k ∈ Finset.univ.erase j, (ps.get k).1 / ((ps.get k).1 - (ps.get j).1)

/-- Modelled from the spec: the reconstruction error taxonomy. -/
inductive RecError : Type where
  | InsufficientShares : RecError
  | InconsistentShares : RecError
deriving DecidableEq

/-- Modelled from the spec: `reconstruct` (missing module `Shamir.hpp`)
Lagrange-interpolates at `x = 0`; it fails with `InsufficientShares` when
fewer than `t+1` shares are supplied, and with `InconsistentShares` when
interpolation from two different size-`(t+1)` subsets disagrees. -/
def reconstruct (t : ℕ) (ps : List (F × F)) : Except RecError F :=
  if ps.length < t + 1 then .error .InsufficientShares
  else
    let v := lagAt0 (ps.take (t + 1))
    if (ps.sublists.filter fun l => l.length == t + 1).all
        (fun l => decide (lagAt0 l = v)) then
      .ok v
    else .error .InconsistentShares

/-- Modelled from the spec: `open` broadcasts shares and reconstructs via the
Shamir primitive with its consistency checks. -/
def openShares {n : ℕ} (t : ℕ) (pts : Fin n → F) (sh : Fin n → F) :
    Except RecError F :=
  reconstruct t (withPoints pts sh)

/-- Modelled from the spec: `add` is pointwise field addition of share
vectors (communication-free). -/
def addShares {n : ℕ} (sa sb : Fin n → F) : Fin n → F :=
  fun i => sa i + sb i

/-- Modelled from the spec: `scalar_multiply` is pointwise multiplication of a
share vector by a public constant (communication-free). -/
def scalarMultiply {n : ℕ} (c : F) (sh : Fin n → F) : Fin n → F :=
  fun i => c * sh i

/-- Modelled from the spec: a double sharing (missing module
`Protocols/AtlasPrep.h`): shares of one random secret at degree `t`
(field `rt`) and at degree `2t` (field `r2t`). -/
structure DoubleSharing (F : Type) (n : ℕ) : Type where
  rt : Fin n → F
  r2t : Fin n → F

/-- Modelled from the spec: the multiplication protocol (missing module
`Protocols/Atlas.hpp`).  Each party computes `a_i * b_i + r2t_i` and sends it
to the current king; the king interpolates the degree-`2t` polynomial at `0`
recovering the masked product, re-shares it at degree `t` with fresh
coefficients `cd`, and each party unmasks its received share by subtracting
`rt_i`.  The values the king receives from honest parties do not depend on
which party is king. -/
def multiplyShares {n t : ℕ} (pts : Fin n → F) (king : Fin n)
    (shA shB : Fin n → F) (ds : DoubleSharing F n) (cd : Fin t → F) :
    Fin n → F :=
  let locals : Fin n → F := fun i => shA i * shB i + ds.r2t i
  let d : F := lagAt0 (withPoints pts locals)
  fun i => sharePoly d cd (pts i) - ds.rt i

/-- Modelled from the spec: per-party session state holding the FIFO
preprocessed buffer of double sharings and the operation counter. -/
structure SessionState (F : Type) (n : ℕ) : Type where
  buffer : List (DoubleSharing F n)
  opCount : ℕ

/-- Modelled from the spec: one online multiplication (missing module
`Protocols/Atlas.hpp`): pop exactly one double sharing from the front of the
preprocessed buffer (none means the engine must await preprocessing) and run
the multiplication protocol with it. -/
def multiplyStep {n t : ℕ} (pts : Fin n → F) (king : Fin n)
    (shA shB : Fin n → F) (cd : Fin t → F) (st : SessionState F n) :
    Option ((Fin n → F) × DoubleSharing F n × SessionState F n) :=
  match st.buffer with
  | [] => none
  | d :: rest => some (multiplyShares pts king shA shB d cd, d, ⟨rest, st.opCount + 1⟩)

/-- Modelled from the spec: run a sequence of multiplications, each given as
(king, shares of a, shares of b, fresh reshare coefficients), recording the
double sharing each multiplication observed. -/
def runMults {n t : ℕ} (pts : Fin n → F)
    (ops : List (Fin n × (Fin n → F) × (Fin n → F) × (Fin t → F)))
    (st : SessionState F n) :
    Option (List (DoubleSharing F n) × SessionState F n) :=
  match ops with
  | [] => some ([], st)
  | op :: rest =>
    match multiplyStep pts op.1 op.2.1 op.2.2.1 op.2.2.2 st with
    | none => none
    | some (_, d, st') =>
      match runMults pts rest st' with
      | none => none
      | some (ds, stf) => some (d :: ds, stf)

/-- Modelled from the spec: the king schedule is a pure function of the
session id and the operation sequence number, rotating round-robin over the
`n` party indices. -/
def kingSchedule (n sid op : ℕ) : ℕ :=
  (sid + op) % n

/-- Modelled from the spec: a party's independent, communication-free
evaluation of the king schedule; it takes the party identity only to show
the result does not depend on it. -/
def partyKingView (party n sid op : ℕ) : ℕ :=
  kingSchedule n sid op

/-- Modelled from the spec: the configuration error taxonomy. -/
inductive ConfigError : Type where
  | InvalidThreshold : ConfigError
deriving DecidableEq

/-- Modelled from the spec: an established session configuration; sharing
operations require one, so a rejected configuration admits no sharing. -/
structure SessionConfig : Type where
  numParties : ℕ
  threshold : ℕ
deriving DecidableEq

/-- Modelled from the spec: session setup checks the honest-majority
condition `2t < n` and rejects the configuration with `InvalidThreshold`
otherwise, before any sharing can occur. -/
def setupSession (n t : ℕ) : Except ConfigError SessionConfig :=
  if 2 * t < n then .ok ⟨n, t⟩ else .error .InvalidThreshold

/-- Modelled from the spec: compose a natural number from little-endian
bits, as the boolean layer's composition of bit-level secrets. -/
def bitsToNat : List Bool → ℕ
  | [] => 0
  | b :: bs => (if b then 1 else 0) + 2 * bitsToNat bs

/-- Modelled from the spec: little-endian bit decomposition of a natural
number into `w` bits. -/
def natToBits : ℕ → ℕ → List Bool
  | 0, _ => []
  | w + 1, x => (x % 2 == 1) :: natToBits w (x / 2)

/-- Modelled from the spec: `to_bits` (missing module `GC/AtlasSecret.h`)
bit-decomposes the field value carried by a share into `field_bit_width`
bit-level secrets; the sub-protocol is delegated to the boolean layer, so it
is modelled by its guaranteed semantics on the represented value. -/
def toBits {p : ℕ} (w : ℕ) (v : ZMod p) : List Bool :=
  natToBits w (ZMod.val v)

/-- Modelled from the spec: `from_bits` (missing module `GC/AtlasSecret.h`)
reconstructs a field share from a bit-level representation by composing the
bits back into a field value. -/
def fromBits {p : ℕ} (bs : List Bool) : ZMod p :=
  ((bitsToNat bs : ℕ) : ZMod p)

/-- The five modules aggregated by `src/Machines/Atlas.hpp` (lines 9-15). -/
inductive AtlasInclude : Type where
  | atlasShareH : AtlasInclude
  | atlasPrepH : AtlasInclude
  | atlasSecretH : AtlasInclude
  | atlasProtocolHpp : AtlasInclude
  | shamirHpp : AtlasInclude
deriving DecidableEq

/-- State of one translation unit relevant to `Machines/Atlas.hpp`: whether
the include guard macro `MACHINES_ATLAS_HPP_` is defined, which module
includes have been emitted, and how many declarations of its own the header
has contributed. -/
structure TUState : Type where
  guardDefined : Bool
  includesEmitted : List AtlasInclude
  declsEmitted : ℕ
deriving DecidableEq

/-- The include list of `src/Machines/Atlas.hpp` lines 9-15, in order. -/
def atlasHppIncludes : List AtlasInclude :=
  [.atlasShareH, .atlasPrepH, .atlasSecretH, .atlasProtocolHpp, .shamirHpp]

/-- Embedding of including `src/Machines/Atlas.hpp` once: if the guard macro
is already defined the header expands to nothing; otherwise it defines the
guard and emits exactly its five includes, contributing no declarations of
its own (lines 6-17 of the source). -/
def includeAtlasHpp (st : TUState) : TUState :=
  if st.guardDefined then st
  else ⟨true, st.includesEmitted ++ atlasHppIncludes, st.declsEmitted⟩

/-- The concrete scenario field of the spec: the integers mod the prime
`97`. -/
instance fact_prime_97 : Fact (Nat.Prime 97) :=
  ⟨by norm_num⟩

/-- The field-level identity behind Lagrange interpolation at `0`: the
weight attached to a node equals the evaluation at `0` of Mathlib's basis
divisor polynomial. -/
theorem div_weight_eq_eval_basisDivisor (a b : F) :
    a / (a - b) = Polynomial.eval 0 (Lagrange.basisDivisor b a) := by
  rw [Lagrange.basisDivisor, Polynomial.eval_mul, Polynomial.eval_C,
    Polynomial.eval_sub, Polynomial.eval_X, Polynomial.eval_C, div_eq_mul_inv,
    show b - a = -(a - b) from (neg_sub a b).symm, inv_neg]
  ring

/-- `lagAt0` recovers the value at `0` of any polynomial of degree less than
the number of supplied points, when the points are pairwise distinct and the
supplied values lie on the polynomial. -/
theorem lagAt0_eq_eval (f : Polynomial F) (ps : List (F × F))
    (hnd : (ps.map Prod.fst).Nodup)
    (hdeg : f.degree < (ps.length : WithBot ℕ))
    (hon : ∀ q ∈ ps, q.2 = Polynomial.eval q.1 f) :
    lagAt0 ps = Polynomial.eval 0 f := by
  classical
  have hvF : Function.Injective (fun k : Fin ps.length => (ps.get k).1) := by
    intro j k hjk
    have hget : Function.Injective (ps.map Prod.fst).get :=
      List.nodup_iff_injective_get.mp hnd
    have hj : (j : ℕ) < (ps.map Prod.fst).length := by simpa using j.2
    have hk : (k : ℕ) < (ps.map Prod.fst).length := by simpa using k.2
    have hh : (ps.map Prod.fst).get ⟨j, hj⟩ = (ps.map Prod.fst).get ⟨k, hk⟩ := by
      simpa [List.get_eq_getElem, List.getElem_map] using hjk
    have hval := hget hh
    rw [Fin.mk.injEq] at hval
    exact Fin.ext hval
  have key : f = Lagrange.interpolate Finset.univ
      (fun k : Fin ps.length => (ps.get k).1) (fun j => (ps.get j).2) := by
    apply Lagrange.eq_interpolate_of_eval_eq
    · exact hvF.injOn
    · simpa using hdeg
    · intro i _
      exact (hon _ (ps.get_mem _ i.2)).symm
  have expand : Polynomial.eval 0 (Lagrange.interpolate Finset.univ
      (fun k : Fin ps.length => (ps.get k).1) (fun j => (ps.get j).2)) =
      lagAt0 ps := by
    rw [Lagrange.interpolate_apply, Polynomial.eval_finset_sum, lagAt0]
    apply Finset.sum_congr rfl
    intro j _
    rw [Polynomial.eval_mul, Polynomial.eval_C]
    congr 1
    unfold Lagrange.basis
    rw [Polynomial.eval_prod]
    apply Finset.prod_congr rfl
    intro k _
    exact (div_weight_eq_eval_basisDivisor (ps.get k).1 (ps.get j).1).symm
  rw [key, expand]

/-- `sharePoly` is the evaluation of the Mathlib polynomial with constant
term `s` and coefficient `c j` on `X^(j+1)`. -/
theorem sharePoly_eq_eval {m : ℕ} (s : F) (c : Fin m → F) (x : F) :
    sharePoly s c x = Polynomial.eval x
      (Polynomial.C s +
        ∑ j : Fin m, Polynomial.C (c j) * Polynomial.X ^ ((j : ℕ) + 1)) := by
  simp [sharePoly, Polynomial.eval_finset_sum]

/-- The sharing polynomial with `m` sampled coefficients has degree at most
`m`. -/
theorem sharePolyX_degree_le {m : ℕ} (s : F) (c : Fin m → F) :
    (Polynomial.C s +
        ∑ j : Fin m, Polynomial.C (c j) * Polynomial.X ^ ((j : ℕ) + 1)).degree
      ≤ ((m : ℕ) : WithBot ℕ) := by
  apply le_trans (Polynomial.degree_add_le _ _)
  apply max_le
  · exact le_trans Polynomial.degree_C_le (by exact_mod_cast Nat.zero_le m)
  · apply le_trans (Polynomial.degree_sum_le _ _)
    apply Finset.sup_le
    intro j _
    exact le_trans (Polynomial.degree_C_mul_X_pow_le _ _)
      (by exact_mod_cast j.2)

/-- The sharing polynomial with `m` sampled coefficients has degree below
`m + 1`. -/
theorem sharePolyX_degree_lt {m : ℕ} (s : F) (c : Fin m → F) :
    (Polynomial.C s +
        ∑ j : Fin m, Polynomial.C (c j) * Polynomial.X ^ ((j : ℕ) + 1)).degree
      < ((m + 1 : ℕ) : WithBot ℕ) :=
  lt_of_le_of_lt (sharePolyX_degree_le s c)
    (by exact_mod_cast Nat.lt_succ_self m)

/-- The sharing polynomial evaluated at the reserved point `0` returns the
secret. -/
theorem sharePoly_at_zero {m : ℕ} (s : F) (c : Fin m → F) :
    sharePoly s c 0 = s := by
  have hz : ∀ j : Fin m, c j * (0 : F) ^ ((j : ℕ) + 1) = 0 := fun j => by
    rw [zero_pow (Nat.succ_ne_zero _), mul_zero]
  rw [sharePoly, Finset.sum_congr rfl fun j _ => hz j, Finset.sum_const_zero,
    add_zero]

/-- Interpolating at `0` from more than `m` distinct points lying on a
sharing polynomial with `m` sampled coefficients recovers the secret. -/
theorem lagAt0_sharePoly {m : ℕ} (s : F) (c : Fin m → F) (ps : List (F × F))
    (hnd : (ps.map Prod.fst).Nodup)
    (hlen : m < ps.length)
    (hon : ∀ q ∈ ps, q.2 = sharePoly s c q.1) :
    lagAt0 ps = s := by
  rw [lagAt0_eq_eval
      (Polynomial.C s +
        ∑ j : Fin m, Polynomial.C (c j) * Polynomial.X ^ ((j : ℕ) + 1)) ps hnd
      (lt_of_lt_of_le (sharePolyX_degree_lt s c) (by exact_mod_cast hlen))
      (fun q hq => by rw [← sharePoly_eq_eval]; exact hon q hq)]
  rw [← sharePoly_eq_eval, sharePoly_at_zero]

/-- Honest reconstruction, polynomial form: when all supplied shares lie on
one polynomial of degree at most `t` at pairwise distinct points and at
least `t+1` shares are supplied, `reconstruct` passes its consistency check
and returns the polynomial's value at `0`. -/
theorem reconstruct_honest_poly (t : ℕ) (f : Polynomial F) (ps : List (F × F))
    (hnd : (ps.map Prod.fst).Nodup)
    (hlen : t + 1 ≤ ps.length)
    (hdeg : f.degree < ((t + 1 : ℕ) : WithBot ℕ))
    (hon : ∀ q ∈ ps, q.2 = Polynomial.eval q.1 f) :
    reconstruct t ps = Except.ok (Polynomial.eval 0 f) := by
  have hsub : ∀ l : List (F × F), l.Sublist ps → l.length = t + 1 →
      lagAt0 l = Polynomial.eval 0 f := by
    intro l hl hlength
    apply lagAt0_eq_eval f l (List.Nodup.sublist (hl.map Prod.fst) hnd)
    · rw [hlength]; exact hdeg
    · intro q hq; exact hon q (hl.subset hq)
  have htake : lagAt0 (ps.take (t + 1)) = Polynomial.eval 0 f :=
    hsub _ (List.take_sublist _ _) (by rw [List.length_take]; omega)
  have hall : ((ps.sublists.filter fun l => l.length == t + 1).all
      fun l => decide (lagAt0 l = lagAt0 (ps.take (t + 1)))) = true := by
    rw [List.all_eq_true]
    intro l hlmem
    rcases List.mem_filter.mp hlmem with ⟨hmem, hbeq⟩
    have hsl : l.Sublist ps := List.mem_sublists.mp hmem
    have hlength : l.length = t + 1 := by simpa using hbeq
    exact decide_eq_true ((hsub l hsl hlength).trans htake.symm)
  simp only [reconstruct]
  rw [if_neg (by omega : ¬ ps.length < t + 1), if_pos hall, htake]

/-- The evaluation points of a paired share list are the points themselves. -/
theorem withPoints_map_fst {n : ℕ} (pts sh : Fin n → F) :
    (withPoints pts sh).map Prod.fst = (List.finRange n).map pts := by
  simp [withPoints, List.map_map, Function.comp]

/-- Distinct evaluation points give a paired share list with pairwise
distinct points. -/
theorem withPoints_nodup {n : ℕ} {pts : Fin n → F}
    (hinj : Function.Injective pts) (sh : Fin n → F) :
    ((withPoints pts sh).map Prod.fst).Nodup := by
  rw [withPoints_map_fst]
  exact (List.nodup_finRange n).map hinj

/-- One paired share per party. -/
theorem withPoints_length {n : ℕ} (pts sh : Fin n → F) :
    (withPoints pts sh).length = n := by
  simp [withPoints]

/-- Members of a paired share list are point-value pairs of some party. -/
theorem withPoints_mem {n : ℕ} {pts sh : Fin n → F} {q : F × F}
    (hq : q ∈ withPoints pts sh) : ∃ i : Fin n, q = (pts i, sh i) := by
  rcases List.mem_map.mp hq with ⟨i, _, hi⟩
  exact ⟨i, hi.symm⟩

/-- Reconstruction of an honestly shared secret: any degree bound `m ≤ t`
with enough parties passes the consistency check and reveals the secret. -/
theorem reconstruct_share {n m : ℕ} (t : ℕ) (hm : m ≤ t) (hn : t + 1 ≤ n)
    (pts : Fin n → F) (hinj : Function.Injective pts) (s : F) (c : Fin m → F) :
    reconstruct t (withPoints pts (share s c pts)) = Except.ok s := by
  rw [reconstruct_honest_poly t
      (Polynomial.C s +
        ∑ j : Fin m, Polynomial.C (c j) * Polynomial.X ^ ((j : ℕ) + 1))
      (withPoints pts (share s c pts)) (withPoints_nodup hinj _)
      (by rw [withPoints_length]; omega)
      (lt_of_lt_of_le (sharePolyX_degree_lt s c) (by exact_mod_cast by omega))
      ?hon]
  · rw [← sharePoly_eq_eval, sharePoly_at_zero]
  case hon =>
    intro q hq
    rcases withPoints_mem hq with ⟨i, rfl⟩
    exact sharePoly_eq_eval s c (pts i)

/-- **C2**: for every secret `s` and every valid configuration with
threshold `2t < n` and distinct evaluation points, reconstructing from the
`n` honestly generated shares of `s` — the degree-`t` polynomial
`p(x) = s + Σ c_i x^i` with `t` sampled coefficients, evaluated at the `n`
fixed public points — returns `s`. -/
theorem shamir_reconstruct_share_id {n t : ℕ} (h2t : 2 * t < n)
    (pts : Fin n → F) (hinj : Function.Injective pts) (s : F)
    (c : Fin t → F) :
    reconstruct t (withPoints pts (share s c pts)) = Except.ok s :=
  reconstruct_share t le_rfl (by omega) pts hinj s c

/-- Witness for C2 at the spec's concrete scenario: `n = 5`, `t = 2`, field
`ZMod 97`, secret `15`, sampled coefficients `3, 5`. -/
theorem shamir_reconstruct_share_id_witness :
    reconstruct 2 (withPoints (stdPoints (ZMod 97) 5)
      (share (15 : ZMod 97) ![3, 5] (stdPoints (ZMod 97) 5))) =
      Except.ok 15 :=
  shamir_reconstruct_share_id (by decide) (stdPoints (ZMod 97) 5) (by decide)
    15 ![3, 5]

/-- Pointwise addition of two honest sharings is an honest sharing of the
sum, with coefficientwise-summed randomness (degree preserved). -/
theorem addShares_share {n m : ℕ} (pts : Fin n → F) (a b : F)
    (ca cb : Fin m → F) :
    addShares (share a ca pts) (share b cb pts) =
      share (a + b) (fun j => ca j + cb j) pts := by
  funext i
  simp only [addShares, share, sharePoly, add_mul, Finset.sum_add_distrib]
  ring

/-- Pointwise multiplication of an honest sharing by a public constant is an
honest sharing of the scaled secret (degree preserved). -/
theorem scalarMultiply_share {n m : ℕ} (pts : Fin n → F) (k a : F)
    (ca : Fin m → F) :
    scalarMultiply k (share a ca pts) = share (k * a) (fun j => k * ca j) pts := by
  funext i
  simp only [scalarMultiply, share, sharePoly, mul_add, Finset.mul_sum, mul_assoc]

/-- **C3**: the local operations are linear homomorphisms — opening the
pointwise sum of two sharings yields `a + b`, opening a public-constant
multiple yields `c * a`, and the sum is again a degree-`t` sharing
(pointwise field addition of share vectors). -/
theorem shamir_linear_ops {n t : ℕ} (h2t : 2 * t < n) (pts : Fin n → F)
    (hinj : Function.Injective pts) (a b k : F) (ca cb : Fin t → F) :
    openShares t pts (addShares (share a ca pts) (share b cb pts)) =
        Except.ok (a + b)
      ∧ openShares t pts (scalarMultiply k (share a ca pts)) =
        Except.ok (k * a)
      ∧ addShares (share a ca pts) (share b cb pts) =
        share (a + b) (fun j => ca j + cb j) pts := by
  refine ⟨?_, ?_, addShares_share pts a b ca cb⟩
  · rw [openShares, addShares_share pts a b ca cb]
    exact reconstruct_share t le_rfl (by omega) pts hinj _ _
  · rw [openShares, scalarMultiply_share pts k a ca]
    exact reconstruct_share t le_rfl (by omega) pts hinj _ _

/-- Witness for C3 over `ZMod 97` with `n = 5`, `t = 2`: opening the sum of
sharings of `15` and `20` yields `35`, and a `4`-multiple of the sharing of
`15` opens to `60`. -/
theorem shamir_linear_ops_witness :
    openShares 2 (stdPoints (ZMod 97) 5)
        (addShares (share (15 : ZMod 97) ![3, 5] (stdPoints (ZMod 97) 5))
          (share (20 : ZMod 97) ![2, 8] (stdPoints (ZMod 97) 5))) =
        Except.ok 35
      ∧ openShares 2 (stdPoints (ZMod 97) 5)
        (scalarMultiply 4 (share (15 : ZMod 97) ![3, 5] (stdPoints (ZMod 97) 5))) =
        Except.ok 60 := by
  have h := shamir_linear_ops (by decide : 2 * 2 < 5) (stdPoints (ZMod 97) 5)
    (by decide) (15 : ZMod 97) 20 4 ![3, 5] ![2, 8]
  exact ⟨h.1.trans (congrArg Except.ok (by decide)),
    h.2.1.trans (congrArg Except.ok (by decide))⟩

/-- The masked local products `a_i * b_i + r2t_i` computed by the parties
lie on a polynomial of degree at most `2t` whose value at `0` is the masked
product `a * b + r`, so the king's interpolation recovers `a * b + r`. -/
theorem king_interpolation {n t : ℕ} (h2t : 2 * t < n) (pts : Fin n → F)
    (hinj : Function.Injective pts) (a b r : F) (ca cb : Fin t → F)
    (cr2 : Fin (2 * t) → F) :
    lagAt0 (withPoints pts (fun i =>
        share a ca pts i * share b cb pts i + share r cr2 pts i)) =
      a * b + r := by
  have hfa := sharePolyX_degree_le a ca
  have hfb := sharePolyX_degree_le b cb
  have hfr := sharePolyX_degree_le r cr2
  rw [lagAt0_eq_eval
      ((Polynomial.C a +
          ∑ j : Fin t, Polynomial.C (ca j) * Polynomial.X ^ ((j : ℕ) + 1)) *
        (Polynomial.C b +
          ∑ j : Fin t, Polynomial.C (cb j) * Polynomial.X ^ ((j : ℕ) + 1)) +
        (Polynomial.C r +
          ∑ j : Fin (2 * t),
            Polynomial.C (cr2 j) * Polynomial.X ^ ((j : ℕ) + 1)))
      _ (withPoints_nodup hinj _) ?deg ?vals]
  · rw [Polynomial.eval_add, Polynomial.eval_mul, ← sharePoly_eq_eval,
      ← sharePoly_eq_eval, ← sharePoly_eq_eval, sharePoly_at_zero,
      sharePoly_at_zero, sharePoly_at_zero]
  case deg =>
    rw [withPoints_length]
    apply lt_of_le_of_lt (Polynomial.degree_add_le _ _)
    apply max_lt
    · rw [Polynomial.degree_mul]
      apply lt_of_le_of_lt (add_le_add hfa hfb)
      rw [show ((t : ℕ) : WithBot ℕ) + ((t : ℕ) : WithBot ℕ) =
          ((t + t : ℕ) : WithBot ℕ) from (Nat.cast_add t t).symm]
      exact_mod_cast by omega
    · exact lt_of_le_of_lt hfr (by exact_mod_cast by omega)
  case vals =>
    intro q hq
    rcases withPoints_mem hq with ⟨i, rfl⟩
    show share a ca pts i * share b cb pts i + share r cr2 pts i = _
    rw [Polynomial.eval_add, Polynomial.eval_mul, ← sharePoly_eq_eval,
      ← sharePoly_eq_eval, ← sharePoly_eq_eval]
    rfl

/-- **C1**: for all field values `a`, `b` and every choice of king in the
rotation, running the multiplication protocol on honest sharings of `a` and
`b` with an honest double sharing of a random mask `r` and opening the
result yields the field product `a * b`. -/
theorem atlas_multiply_open_product {n t : ℕ} (h2t : 2 * t < n)
    (pts : Fin n → F) (hinj : Function.Injective pts) (king : Fin n)
    (a b r : F) (ca cb crt cd : Fin t → F) (cr2 : Fin (2 * t) → F) :
    openShares t pts
        (multiplyShares pts king (share a ca pts) (share b cb pts)
          ⟨share r crt pts, share r cr2 pts⟩ cd) =
      Except.ok (a * b) := by
  have hfinal : multiplyShares pts king (share a ca pts) (share b cb pts)
      ⟨share r crt pts, share r cr2 pts⟩ cd =
      share (a * b + r - r) (fun j => cd j - crt j) pts := by
    funext i
    show sharePoly (lagAt0 (withPoints pts (fun i =>
        share a ca pts i * share b cb pts i + share r cr2 pts i))) cd (pts i)
        - share r crt pts i = _
    rw [king_interpolation h2t pts hinj a b r ca cb cr2]
    simp only [share, sharePoly, sub_mul, Finset.sum_sub_distrib]
    ring
  rw [openShares, hfinal,
    reconstruct_share t le_rfl (by omega) pts hinj _ _, add_sub_cancel_right]

/-- Witness for C1 at the spec's concrete scenario: `n = 5`, `t = 2`, field
`ZMod 97`, `a = 15`, `b = 20`, king = party 3 (the party at evaluation
point 3), mask `r = 7`: opening the product sharing yields
`300 mod 97 = 9`. -/
theorem atlas_multiply_open_product_witness :
    openShares 2 (stdPoints (ZMod 97) 5)
        (multiplyShares (stdPoints (ZMod 97) 5) ⟨2, by omega⟩
          (share (15 : ZMod 97) ![3, 5] (stdPoints (ZMod 97) 5))
          (share (20 : ZMod 97) ![2, 8] (stdPoints (ZMod 97) 5))
          ⟨share (7 : ZMod 97) ![1, 4] (stdPoints (ZMod 97) 5),
            share (7 : ZMod 97) ![6, 2, 9, 11] (stdPoints (ZMod 97) 5)⟩
          ![5, 7]) =
      Except.ok 9 := by
  have h := atlas_multiply_open_product (by decide : 2 * 2 < 5)
    (stdPoints (ZMod 97) 5) (by decide) ⟨2, by omega⟩ (15 : ZMod 97) 20 7
    ![3, 5] ![2, 8] ![1, 4] ![5, 7] ![6, 2, 9, 11]
  exact h.trans (congrArg Except.ok (by decide))

/-- Exhibiting two size-`(t+1)` subsets whose interpolations at `0` disagree
forces `reconstruct` to fail with `InconsistentShares`. -/
theorem reconstruct_eq_inconsistent (t : ℕ) (ps : List (F × F))
    (hlen : t + 1 ≤ ps.length) (l1 l2 : List (F × F)) (h1 : l1.Sublist ps)
    (h2 : l2.Sublist ps) (hL1 : l1.length = t + 1) (hL2 : l2.length = t + 1)
    (hne : lagAt0 l1 ≠ lagAt0 l2) :
    reconstruct t ps = Except.error RecError.InconsistentShares := by
  simp only [reconstruct]
  rw [if_neg (by omega), if_neg ?hc]
  case hc =>
    intro hall
    rw [List.all_eq_true] at hall
    have e1 := hall l1
      (List.mem_filter.mpr ⟨List.mem_sublists.mpr h1, by simp [hL1]⟩)
    have e2 := hall l2
      (List.mem_filter.mpr ⟨List.mem_sublists.mpr h2, by simp [hL2]⟩)
    rw [decide_eq_true_eq] at e1 e2
    exact hne (e1.trans e2.symm)

/-- **C4 (amended)**: when at least `t+1` of the supplied shares are honest
(an unmodified sub-multiset of a degree-`t` sharing of `s` at distinct
points), reconstruction never silently returns a wrong secret — it returns
`s` or surfaces `InconsistentShares`. -/
theorem reconstruct_tamper_never_wrong (t : ℕ) (s : F) (c : Fin t → F)
    (ps : List (F × F))
    (hhon : ∃ hl : List (F × F), hl.Sublist ps ∧ hl.length = t + 1 ∧
        (hl.map Prod.fst).Nodup ∧ ∀ q ∈ hl, q.2 = sharePoly s c q.1) :
    reconstruct t ps = Except.ok s ∨
      reconstruct t ps = Except.error RecError.InconsistentShares := by
  rcases hhon with ⟨hl, hsub, hlen, hnd, hon⟩
  have hplen : t + 1 ≤ ps.length := hlen ▸ hsub.length_le
  have hhl : lagAt0 hl = s := lagAt0_sharePoly s c hl hnd (by omega) hon
  simp only [reconstruct]
  rw [if_neg (by omega)]
  by_cases hall : ((ps.sublists.filter fun l => l.length == t + 1).all
      fun l => decide (lagAt0 l = lagAt0 (ps.take (t + 1)))) = true
  · left
    rw [if_pos hall]
    have hv := List.all_eq_true.mp hall hl
      (List.mem_filter.mpr ⟨List.mem_sublists.mpr hsub, by simp [hlen]⟩)
    rw [decide_eq_true_eq] at hv
    rw [← hv, hhl]
  · right
    rw [if_neg hall]

/-- Counterexample to C4 as stated: over `ZMod 97` with `n = 5`, `t = 2`,
the list `[(1,23),(2,41),(3,69),(4,11),(5,59)]` is the honest sharing of
secret `15` (coefficients `3, 5`) with its `2` shares at points `4` and `5`
flipped (honest values were `10` and `58`).  Its first `t+1 = 3` entries are
still honest, yet reconstruction does not succeed with the original secret:
it fails with `InconsistentShares`. -/
theorem reconstruct_two_flips_counterexample :
    (∀ q ∈ ([(1, 23), (2, 41), (3, 69)] : List (ZMod 97 × ZMod 97)),
        q.2 = sharePoly (15 : ZMod 97) ![3, 5] q.1)
      ∧ ([(1, 23), (2, 41), (3, 69)] : List (ZMod 97 × ZMod 97)).Sublist
          [(1, 23), (2, 41), (3, 69), (4, 11), (5, 59)]
      ∧ reconstruct 2
          ([(1, 23), (2, 41), (3, 69), (4, 11), (5, 59)] :
            List (ZMod 97 × ZMod 97)) =
        Except.error RecError.InconsistentShares := by
  have hon1 : ∀ q ∈ ([(1, 23), (2, 41), (3, 69)] : List (ZMod 97 × ZMod 97)),
      q.2 = sharePoly (15 : ZMod 97) ![3, 5] q.1 := by
    intro q hq
    fin_cases hq <;> norm_num [sharePoly, Fin.sum_univ_succ] <;>
      reduce_mod_char
  have hon2 : ∀ q ∈ ([(3, 69), (4, 11), (5, 59)] : List (ZMod 97 × ZMod 97)),
      q.2 = sharePoly (6 : ZMod 97) ![56, 53] q.1 := by
    intro q hq
    fin_cases hq <;> norm_num [sharePoly, Fin.sum_univ_succ] <;>
      reduce_mod_char
  refine ⟨hon1, by decide, ?_⟩
  have e1 : lagAt0 ([(1, 23), (2, 41), (3, 69)] : List (ZMod 97 × ZMod 97)) =
      15 :=
    lagAt0_sharePoly 15 ![3, 5] _ (by decide) (by decide) hon1
  have e2 : lagAt0 ([(3, 69), (4, 11), (5, 59)] : List (ZMod 97 × ZMod 97)) =
      6 :=
    lagAt0_sharePoly 6 ![56, 53] _ (by decide) (by decide) hon2
  apply reconstruct_eq_inconsistent 2 _ (by decide)
    [(1, 23), (2, 41), (3, 69)] [(3, 69), (4, 11), (5, 59)]
    (by decide) (by decide) (by decide) (by decide)
  rw [e1, e2]
  decide

/-- Witness for the amended C4: on the flipped list above the `t+1` honest
prefix exists, and reconstruction indeed lands in the allowed alternative. -/
theorem reconstruct_tamper_never_wrong_witness :
    reconstruct 2
        ([(1, 23), (2, 41), (3, 69), (4, 11), (5, 59)] :
          List (ZMod 97 × ZMod 97)) = Except.ok 15 ∨
      reconstruct 2
        ([(1, 23), (2, 41), (3, 69), (4, 11), (5, 59)] :
          List (ZMod 97 × ZMod 97)) =
        Except.error RecError.InconsistentShares :=
  reconstruct_tamper_never_wrong 2 15 ![3, 5] _
    ⟨[(1, 23), (2, 41), (3, 69)], by decide, by decide, by decide, by
      intro q hq
      fin_cases hq <;> norm_num [sharePoly, Fin.sum_univ_succ] <;>
        reduce_mod_char⟩

/-- **C8**: `reconstruct` fails with `InsufficientShares` exactly when fewer
than `t+1` shares are supplied; given enough shares it fails with
`InconsistentShares` exactly when two size-`(t+1)` subsets of the supplied
shares interpolate to different values at `0`; otherwise it returns the
value interpolated at `x = 0`, on which all size-`(t+1)` subsets agree. -/
theorem reconstruct_error_characterization (t : ℕ) (ps : List (F × F)) :
    (reconstruct t ps = Except.error RecError.InsufficientShares ↔
      ps.length < t + 1)
  ∧ (reconstruct t ps = Except.error RecError.InconsistentShares ↔
      (t + 1 ≤ ps.length ∧ ∃ l1 l2 : List (F × F), l1.Sublist ps ∧
        l2.Sublist ps ∧ l1.length = t + 1 ∧ l2.length = t + 1 ∧
        lagAt0 l1 ≠ lagAt0 l2))
  ∧ (∀ v : F, reconstruct t ps = Except.ok v ↔
      (t + 1 ≤ ps.length ∧ v = lagAt0 (ps.take (t + 1)) ∧
        ∀ l : List (F × F), l.Sublist ps → l.length = t + 1 →
          lagAt0 l = v)) := by
  by_cases hlen : ps.length < t + 1
  · have hr : reconstruct t ps = Except.error RecError.InsufficientShares := by
      simp only [reconstruct]
      rw [if_pos hlen]
    refine ⟨iff_of_true hr hlen, ?_, ?_⟩
    · constructor
      · intro h
        rw [hr] at h
        simp at h
      · rintro ⟨h, -⟩
        omega
    · intro v
      constructor
      · intro h
        rw [hr] at h
        simp at h
      · rintro ⟨h, -, -⟩
        omega
  · push_neg at hlen
    by_cases hall : ((ps.sublists.filter fun l => l.length == t + 1).all
        fun l => decide (lagAt0 l = lagAt0 (ps.take (t + 1)))) = true
    · have hr : reconstruct t ps = Except.ok (lagAt0 (ps.take (t + 1))) := by
        simp only [reconstruct]
        rw [if_neg (by omega), if_pos hall]
      have hsubs : ∀ l : List (F × F), l.Sublist ps → l.length = t + 1 →
          lagAt0 l = lagAt0 (ps.take (t + 1)) := by
        intro l hsl hl
        have := List.all_eq_true.mp hall l
          (List.mem_filter.mpr ⟨List.mem_sublists.mpr hsl, by simp [hl]⟩)
        exact of_decide_eq_true this
      refine ⟨?_, ?_, ?_⟩
      · rw [hr]
        constructor
        · intro h
          simp at h
        · intro h
          omega
      · rw [hr]
        constructor
        · intro h
          simp at h
        · rintro ⟨-, l1, l2, h1, h2, hL1, hL2, hne⟩
          exact absurd ((hsubs l1 h1 hL1).trans (hsubs l2 h2 hL2).symm) hne
      · intro v
        rw [hr]
        constructor
        · intro h
          have hv : lagAt0 (ps.take (t + 1)) = v := by
            simpa using h
          exact ⟨hlen, hv.symm, fun l hsl hl => (hsubs l hsl hl).trans hv⟩
        · rintro ⟨-, hv, -⟩
          rw [hv]
    · have hr : reconstruct t ps = Except.error RecError.InconsistentShares := by
        simp only [reconstruct]
        rw [if_neg (by omega), if_neg hall]
      have hex : ∃ l1 l2 : List (F × F), l1.Sublist ps ∧ l2.Sublist ps ∧
          l1.length = t + 1 ∧ l2.length = t + 1 ∧ lagAt0 l1 ≠ lagAt0 l2 := by
        rw [List.all_eq_true] at hall
        push_neg at hall
        rcases hall with ⟨l, hmem, hdec⟩
        have hsl : l.Sublist ps :=
          List.mem_sublists.mp (List.mem_filter.mp hmem).1
        have hl : l.length = t + 1 := by
          simpa using (List.mem_filter.mp hmem).2
        refine ⟨l, ps.take (t + 1), hsl, List.take_sublist _ _, hl,
          by rw [List.length_take]; omega, ?_⟩
        intro heq
        exact hdec (decide_eq_true heq)
      refine ⟨?_, iff_of_true hr ⟨hlen, hex⟩, ?_⟩
      · rw [hr]
        constructor
        · intro h
          simp at h
        · intro h
          omega
      · intro v
        rw [hr]
        constructor
        · intro h
          simp at h
        · rintro ⟨-, hv, hforall⟩
          rcases hex with ⟨l1, l2, h1, h2, hL1, hL2, hne⟩
          exact absurd ((hforall l1 h1 hL1).trans (hforall l2 h2 hL2).symm) hne

/-- Witness for C8: with no shares supplied and `t = 2`, reconstruction
fails with `InsufficientShares`. -/
theorem reconstruct_error_characterization_witness :
    reconstruct 2 ([] : List (ZMod 97 × ZMod 97)) =
      Except.error RecError.InsufficientShares :=
  (reconstruct_error_characterization 2 []).1.mpr (by decide)

/-- A successful multiplication step pops exactly the head of the
preprocessed buffer. -/
theorem multiplyStep_pop {n t : ℕ} (pts : Fin n → F) (king : Fin n)
    (shA shB : Fin n → F) (cd : Fin t → F) (st : SessionState F n)
    (res : Fin n → F) (d : DoubleSharing F n) (st' : SessionState F n)
    (h : multiplyStep pts king shA shB cd st = some (res, d, st')) :
    st.buffer = d :: st'.buffer := by
  rcases st with ⟨buf, cnt⟩
  cases buf with
  | nil => simp [multiplyStep] at h
  | cons d0 rest =>
    simp only [multiplyStep, Option.some.injEq, Prod.mk.injEq] at h
    rw [← h.2.2, h.2.1]

/-- Running a sequence of multiplications consumes exactly one buffered
double sharing per multiplication, front to back. -/
theorem runMults_consumption {n t : ℕ} (pts : Fin n → F)
    (ops : List (Fin n × (Fin n → F) × (Fin n → F) × (Fin t → F))) :
    ∀ (st : SessionState F n) ds stf, runMults pts ops st = some (ds, stf) →
      ds = st.buffer.take ops.length ∧
        stf.buffer = st.buffer.drop ops.length ∧
        ops.length ≤ st.buffer.length := by
  induction ops with
  | nil =>
    intro st ds stf h
    simp only [runMults, Option.some.injEq, Prod.mk.injEq] at h
    rw [← h.1, ← h.2]
    exact ⟨rfl, rfl, Nat.zero_le _⟩
  | cons op rest ih =>
    intro st ds stf h
    rcases st with ⟨buf, cnt⟩
    cases buf with
    | nil => simp [runMults, multiplyStep] at h
    | cons d0 bufrest =>
      simp only [runMults, multiplyStep] at h
      cases hrun : runMults pts rest ⟨bufrest, cnt + 1⟩ with
      | none => rw [hrun] at h; simp at h
      | some pair =>
        rw [hrun] at h
        obtain ⟨ds', stf'⟩ := pair
        simp only [Option.some.injEq, Prod.mk.injEq] at h
        obtain ⟨hds, hstf⟩ := h
        obtain ⟨ihd, ihb, ihlen⟩ := ih ⟨bufrest, cnt + 1⟩ ds' stf' hrun
        dsimp only at ihd ihb ihlen ⊢
        refine ⟨?_, ?_, ?_⟩
        · rw [← hds, List.length_cons, List.take_succ_cons, ihd]
        · rw [← hstf, List.length_cons, List.drop_succ_cons, ihb]
        · rw [List.length_cons, List.length_cons]
          omega

/-- **C5**: every double sharing is consumed by at most one multiplication
and never reused — each multiplication pops exactly one double sharing from
the front of the preprocessed buffer (the queue length strictly decreases by
exactly one per multiplication), and when the buffered masks are pairwise
distinct, no two multiplications in a run observe the same mask. -/
theorem double_sharing_consumed_once {n t : ℕ} (pts : Fin n → F) :
    (∀ (king : Fin n) (shA shB : Fin n → F) (cd : Fin t → F)
        (st : SessionState F n) (res : Fin n → F) (d : DoubleSharing F n)
        (st' : SessionState F n),
        multiplyStep pts king shA shB cd st = some (res, d, st') →
        st.buffer = d :: st'.buffer ∧
          st'.buffer.length + 1 = st.buffer.length)
  ∧ (∀ (ops : List (Fin n × (Fin n → F) × (Fin n → F) × (Fin t → F)))
        (st : SessionState F n) (ds : List (DoubleSharing F n))
        (stf : SessionState F n),
        runMults pts ops st = some (ds, stf) →
        ds = st.buffer.take ops.length ∧
          stf.buffer.length + ops.length = st.buffer.length ∧
          (st.buffer.Nodup → ds.Nodup)) := by
  constructor
  · intro king shA shB cd st res d st' h
    have hpop := multiplyStep_pop pts king shA shB cd st res d st' h
    rw [hpop]
    exact ⟨rfl, rfl⟩
  · intro ops st ds stf h
    obtain ⟨hds, hstf, hlen⟩ := runMults_consumption pts ops st ds stf h
    refine ⟨hds, ?_, ?_⟩
    · rw [hstf, List.length_drop]
      omega
    · intro hnd
      rw [hds]
      exact List.Nodup.sublist (List.take_sublist _ _) hnd

/-- Witness for C5 over `ZMod 97` with one party: running two
multiplications against a three-element buffer consumes exactly the first
two double sharings, in order, and they are distinct. -/
theorem double_sharing_consumed_once_witness :
    ([⟨![1], ![2]⟩, ⟨![3], ![4]⟩] : List (DoubleSharing (ZMod 97) 1)) =
        ([⟨![1], ![2]⟩, ⟨![3], ![4]⟩, ⟨![5], ![6]⟩] :
          List (DoubleSharing (ZMod 97) 1)).take 2
      ∧ ([⟨![5], ![6]⟩] : List (DoubleSharing (ZMod 97) 1)).length + 2 =
        ([⟨![1], ![2]⟩, ⟨![3], ![4]⟩, ⟨![5], ![6]⟩] :
          List (DoubleSharing (ZMod 97) 1)).length
      ∧ (([⟨![1], ![2]⟩, ⟨![3], ![4]⟩, ⟨![5], ![6]⟩] :
          List (DoubleSharing (ZMod 97) 1)).Nodup →
        ([⟨![1], ![2]⟩, ⟨![3], ![4]⟩] :
          List (DoubleSharing (ZMod 97) 1)).Nodup) :=
  (double_sharing_consumed_once (stdPoints (ZMod 97) 1)).2
    [(0, ![1], ![1], ![7]), (0, ![1], ![1], ![7])]
    ⟨[⟨![1], ![2]⟩, ⟨![3], ![4]⟩, ⟨![5], ![6]⟩], 0⟩
    [⟨![1], ![2]⟩, ⟨![3], ![4]⟩] ⟨[⟨![5], ![6]⟩], 2⟩ rfl

/-- **C6**: the king schedule is a pure deterministic function of the
session id and the operation sequence number — any two parties evaluating
it independently and without communication obtain the same valid king
index, the king rotates round-robin (each operation advances the king by
one modulo `n`), and within any window of `n` consecutive operations every
party index serves as king. -/
theorem king_schedule_deterministic (n sid op : ℕ) (hn : 0 < n) :
    (∀ p1 p2 : ℕ, partyKingView p1 n sid op = partyKingView p2 n sid op)
  ∧ kingSchedule n sid op < n
  ∧ kingSchedule n sid (op + 1) = (kingSchedule n sid op + 1) % n
  ∧ ∀ k : ℕ, k < n → ∃ i : ℕ, i < n ∧ kingSchedule n sid (op + i) = k := by
  refine ⟨fun p1 p2 => rfl, Nat.mod_lt _ hn, ?_, ?_⟩
  · show (sid + (op + 1)) % n = ((sid + op) % n + 1) % n
    rw [Nat.mod_add_mod, ← Nat.add_assoc]
  · intro k hk
    refine ⟨(k + n - (sid + op) % n) % n, Nat.mod_lt _ hn, ?_⟩
    show (sid + (op + (k + n - (sid + op) % n) % n)) % n = k
    have ha : (sid + op) % n < n := Nat.mod_lt _ hn
    rw [← Nat.add_assoc, ← Nat.mod_add_mod, Nat.add_mod_mod,
      Nat.add_sub_cancel' (by omega : (sid + op) % n ≤ k + n),
      Nat.add_mod_right, Nat.mod_eq_of_lt hk]

/-- Witness for C6 at `n = 5`, session id `0`, operation index `3`. -/
theorem king_schedule_deterministic_witness :
    (∀ p1 p2 : ℕ, partyKingView p1 5 0 3 = partyKingView p2 5 0 3)
  ∧ kingSchedule 5 0 3 < 5
  ∧ kingSchedule 5 0 (3 + 1) = (kingSchedule 5 0 3 + 1) % 5
  ∧ ∀ k : ℕ, k < 5 → ∃ i : ℕ, i < 5 ∧ kingSchedule 5 0 (3 + i) = k :=
  king_schedule_deterministic 5 0 3 (by omega)

/-- **C7**: session setup rejects every configuration with `2t ≥ n` with
`InvalidThreshold` — no session configuration is produced, so no sharing
can occur — and accepts every configuration with `2t < n` without raising
`InvalidThreshold`. -/
theorem setup_threshold_check (n t : ℕ) :
    (n ≤ 2 * t →
      setupSession n t = Except.error ConfigError.InvalidThreshold)
  ∧ (2 * t < n → setupSession n t = Except.ok ⟨n, t⟩) := by
  constructor
  · intro h
    simp only [setupSession]
    rw [if_neg (by omega)]
  · intro h
    simp only [setupSession]
    rw [if_pos h]

/-- Witness for C7: `n = 3, t = 2` (violating `2t < n`) is rejected with
`InvalidThreshold`, while `n = 5, t = 2` is accepted. -/
theorem setup_threshold_check_witness :
    setupSession 3 2 = Except.error ConfigError.InvalidThreshold ∧
      setupSession 5 2 = Except.ok ⟨5, 2⟩ :=
  ⟨(setup_threshold_check 3 2).1 (by omega),
    (setup_threshold_check 5 2).2 (by omega)⟩

/-- Bit decomposition always produces exactly the requested width. -/
theorem natToBits_length : ∀ w x : ℕ, (natToBits w x).length = w := by
  intro w
  induction w with
  | zero => intro x; rfl
  | succ w ih => intro x; simp [natToBits, ih]

/-- Recomposing the `w`-bit decomposition of a natural number below `2^w`
returns the number. -/
theorem bitsToNat_natToBits : ∀ w x : ℕ, x < 2 ^ w →
    bitsToNat (natToBits w x) = x := by
  intro w
  induction w with
  | zero =>
    intro x hx
    have hx0 : x = 0 := by omega
    subst hx0
    rfl
  | succ w ih =>
    intro x hx
    have hdiv : x / 2 < 2 ^ w := by
      have h2 : (2 : ℕ) ^ (w + 1) = 2 ^ w * 2 := by rw [pow_succ]
      omega
    simp only [natToBits, bitsToNat]
    rw [ih (x / 2) hdiv]
    rcases Nat.mod_two_eq_zero_or_one x with h | h <;> simp [h] <;> omega

/-- **C9**: the generic secret bridge conversions round-trip — for every
field value, `fromBits (toBits w v)` returns the same field value, and
`toBits` produces exactly `w` (the field bit width, `p ≤ 2^w`) bit-level
secrets whose composition is the value it decomposed. -/
theorem bridge_bits_roundtrip (p w : ℕ) [NeZero p] (hw : p ≤ 2 ^ w)
    (v : ZMod p) :
    fromBits (toBits w v) = v ∧ (toBits w v).length = w ∧
      bitsToNat (toBits w v) = ZMod.val v := by
  have hval : ZMod.val v < 2 ^ w := lt_of_lt_of_le (ZMod.val_lt v) hw
  have hb : bitsToNat (natToBits w (ZMod.val v)) = ZMod.val v :=
    bitsToNat_natToBits w _ hval
  refine ⟨?_, natToBits_length w _, hb⟩
  rw [fromBits, toBits, hb]
  exact ZMod.natCast_rightInverse v

/-- Witness for C9: the value `42` of the 7-bit field `ZMod 97`
round-trips through the bridge. -/
theorem bridge_bits_roundtrip_witness :
    (fromBits (toBits 7 (42 : ZMod 97)) : ZMod 97) = 42 ∧
      (toBits 7 (42 : ZMod 97)).length = 7 ∧
      bitsToNat (toBits 7 (42 : ZMod 97)) = ZMod.val (42 : ZMod 97) :=
  bridge_bits_roundtrip 97 7 (by norm_num) 42

/-- Including `Machines/Atlas.hpp` is idempotent on the translation-unit
state: a second inclusion finds the guard macro defined and expands to
nothing. -/
theorem includeAtlasHpp_idem (st : TUState) :
    includeAtlasHpp (includeAtlasHpp st) = includeAtlasHpp st := by
  rcases st with ⟨g, inc, dec⟩
  cases g <;> simp [includeAtlasHpp]

/-- **C10**: including `Machines/Atlas.hpp` any number of times in one
translation unit equals including it once (the guard macro
`MACHINES_ATLAS_HPP_` makes inclusion idempotent), the header contributes
no declarations of its own, and a first inclusion emits exactly the five
aggregated module includes. -/
theorem atlas_header_idempotent :
    (∀ (st : TUState) (k : ℕ),
      includeAtlasHpp^[k + 1] st = includeAtlasHpp st)
  ∧ (∀ st : TUState,
      (includeAtlasHpp st).declsEmitted = st.declsEmitted)
  ∧ (∀ st : TUState, st.guardDefined = false →
      (includeAtlasHpp st).includesEmitted =
        st.includesEmitted ++ atlasHppIncludes) := by
  refine ⟨?_, ?_, ?_⟩
  · intro st k
    induction k with
    | zero => rfl
    | succ k ih =>
      rw [Function.iterate_succ_apply', ih, includeAtlasHpp_idem]
  · intro st
    rcases st with ⟨g, inc, dec⟩
    cases g <;> simp [includeAtlasHpp]
  · intro st hg
    rcases st with ⟨g, inc, dec⟩
    cases g
    · simp [includeAtlasHpp]
    · simp at hg

/-- Witness for C10: from a fresh translation unit, two inclusions equal
one, and the single inclusion emits the five module includes. -/
theorem atlas_header_idempotent_witness :
    includeAtlasHpp^[2] ⟨false, [], 0⟩ = includeAtlasHpp ⟨false, [], 0⟩
  ∧ (includeAtlasHpp ⟨false, [], 0⟩).includesEmitted =
      [] ++ atlasHppIncludes :=
  ⟨atlas_header_idempotent.1 ⟨false, [], 0⟩ 1,
    atlas_header_idempotent.2.2 ⟨false, [], 0⟩ rfl⟩

end Atlas
